import Mathlib

/-!
Shallow embedding of the ranked timestamp store and selection/decay engine:
the SortedVec container (utils crate) and the word-frequency store,
selection and decay cycle of the bot (pino-bot crate).
Timestamps are modelled as integers (a totally ordered clock).
-/

namespace SortedVec

/-- Binary-search loop of SortedVec::rank. State (l, r, mid) mirrors the
mutable locals; the loop runs while l < r; mid holds the last computed
midpoint (0 before the first iteration). Fuel bounds the iteration count;
rank supplies fuel = length, which exceeds the initial r - l. -/
def rankLoop (v : List Int) (key : Int) : Nat → Nat → Nat → Nat → Nat
  | 0, _, _, mid => mid
  | fuel + 1, l, r, mid =>
    if l < r then
      let m := (l + r) / 2
      if v.getD m 0 < key then rankLoop v key fuel (m + 1) r m
      else if key < v.getD m 0 then rankLoop v key fuel l m m
      else m
    else mid

/-- SortedVec::rank: on an empty vector 0; otherwise binary search narrows
to mid, then a forward scan from mid counts the contiguous run of elements
le key, and the result is mid + run length. -/
def rank (v : List Int) (key : Int) : Nat :=
  if v.isEmpty then 0
  else
    let mid := rankLoop v key v.length 0 (v.length - 1) 0
    mid + ((v.drop mid).takeWhile (fun num => num ≤ key)).length

/-- SortedVec::insert: Vec::insert(rank(key), key), i.e. the element is
placed at index rank(key), shifting the suffix right. -/
def insert (v : List Int) (key : Int) : List Int :=
  v.take (rank v key) ++ key :: v.drop (rank v key)

/-- SortedVec::position: last index holding an element equal to key, or
none; reads vec[pos - 1] only when pos = rank(key) is nonzero. -/
def position (v : List Int) (key : Int) : Option Nat :=
  let pos := rank v key
  if pos ≠ 0 ∧ v.getD (pos - 1) 0 = key then some (pos - 1) else none

/-- SortedVec::remove_le: Vec::retain keeping only elements strictly
greater than key, in place, order preserved. -/
def removeLe (v : List Int) (key : Int) : List Int :=
  v.filter (fun elem => key < elem)

end SortedVec

/-- The WordMap: token → SortedVec of timestamps. The HashMap is embedded
as an association list; the list order stands for the map's (unspecified)
iteration order. -/
abbrev Store := List (String × List Int)

/-- Eviction pass of the decay loop: for every entry, remove_le(cutoff) on
its timestamp set. -/
def evict (s : Store) (cutoff : Int) : Store :=
  s.map (fun p => (p.1, SortedVec.removeLe p.2 cutoff))

/-- Compaction pass of the decay loop: retain(|_k, vec| vec.len() != 0). -/
def compact (s : Store) : Store :=
  s.filter (fun p => p.2.length ≠ 0)

/-- Scoring pass of the selection: each entry, in iteration order, gets
score = instances.len() + boost(), the boost closure drawing one fresh
value per entry; bs i is the value of the i-th draw. -/
def scoreEntries (bs : Nat → Nat) : Nat → Store → List (String × Nat)
  | _, [] => []
  | i, p :: rest => (p.1, p.2.length + bs i) :: scoreEntries bs (i + 1) rest

/-- One step of Iterator::max_by_key: on equal keys the later element
replaces the earlier one (max_by_key returns the last maximum). -/
def maxStep (acc : Option (String × Nat)) (p : String × Nat) : Option (String × Nat) :=
  match acc with
  | none => some p
  | some q => if q.2 ≤ p.2 then some p else some q

/-- Iterator::max_by_key over the scored entries: none on an empty
iterator, otherwise the last element attaining the maximal score. -/
def maxByKeyLast (l : List (String × Nat)) : Option (String × Nat) :=
  l.foldl maxStep none

/-- Selection of the decay loop: max_by_key over the scored entries, the
word extracted, then .or(default_word). -/
def selectWeightedMax (es : Store) (bs : Nat → Nat) (defaultWord : Option String) :
    Option String :=
  ((maxByKeyLast (scoreEntries bs 0 es)).map Prod.fst).or defaultWord

/-- Recording one word (Reader::message body): get_mut(&word) hit inserts
the timestamp into the existing set, miss inserts a fresh singleton set
(SortedVec::from_vec(vec![time]), and a one-element vector is already
sorted). -/
def record (m : Store) (w : String) (t : Int) : Store :=
  match List.lookup w m with
  | some _ => m.map (fun p => if p.1 = w then (p.1, SortedVec.insert p.2 t) else p)
  | none => m ++ [(w, [t])]

/-- Case normalization applied by the word iterator: str::to_lowercase,
modelled per character (faithful on the ASCII examples of the spec). -/
def normalizeWord (s : String) : String :=
  String.mk (s.data.map Char.toLower)

/-- Recording an incoming word: normalization followed by record. -/
def recordWord (m : Store) (w : String) (t : Int) : Store :=
  record m (normalizeWord w) t

/-- One iteration of the decay/selection loop after the wait, mirroring
the control flow of main: select a word; if some word was selected, try to
emit it (only when a recent channel exists and the send succeeds), then
evict and compact; if no word was selected, nothing runs. Returns the new
store, whether the eviction block ran, and the emitted (word, channel). -/
def decayCycle (store : Store) (bs : Nat → Nat) (defaultWord : Option String)
    (channel : Option Nat) (sendOk : Bool) (cutoff : Int) :
    Store × Bool × Option (String × Nat) :=
  match selectWeightedMax store bs defaultWord with
  | some w =>
      let sent := match channel with
        | some ch => if sendOk then some (w, ch) else none
        | none => none
      (compact (evict store cutoff), true, sent)
  | none => (store, false, none)

namespace SortedVec

/-- Any index inside the le-key prefix of the vector holds an element le
key (the takeWhile boundary bounds the le-key elements from below). -/
lemma le_key_of_lt_boundary {key : Int} {v : List Int} :
    ∀ {i : Nat}, i < (v.takeWhile (fun x => x ≤ key)).length → v.getD i 0 ≤ key := by
  induction v with
  | nil => intro i h; simp at h
  | cons a t ih =>
    intro i h
    by_cases ha : a ≤ key
    · cases i with
      | zero => simpa using ha
      | succ j =>
        simp only [List.takeWhile_cons, decide_eq_true ha, if_true, List.length_cons,
          Nat.add_lt_add_iff_right] at h
        simpa using ih h
    · simp [List.takeWhile_cons, ha] at h

/-- In a sorted vector, any index at or past the le-key prefix boundary
holds an element strictly greater than key. -/
lemma key_lt_of_boundary_le {key : Int} {v : List Int} (hs : List.Sorted (· ≤ ·) v) :
    ∀ {i : Nat}, (v.takeWhile (fun x => x ≤ key)).length ≤ i → i < v.length →
      key < v.getD i 0 := by
  induction v with
  | nil => intro i _ hi; simp at hi
  | cons a t ih =>
    intro i hc hi
    rw [List.sorted_cons] at hs
    by_cases ha : a ≤ key
    · simp only [List.takeWhile_cons, decide_eq_true ha, if_true, List.length_cons] at hc
      cases i with
      | zero => omega
      | succ j =>
        simp only [List.length_cons, Nat.add_lt_add_iff_right] at hi
        simpa using ih hs.2 (by omega) hi
    · cases i with
      | zero => simpa using lt_of_not_le ha
      | succ j =>
        simp only [List.length_cons, Nat.add_lt_add_iff_right] at hi
        have hmem : t.getD j 0 ∈ t := by
          rw [List.getD_eq_getElem _ _ hi]; exact List.getElem_mem hi
        have := hs.1 _ hmem
        simpa using lt_of_lt_of_le (lt_of_not_le ha) this

/-- Characterization of the length of a takeWhile prefix by an index
bound: k elements satisfy the predicate and the k-th fails it. -/
lemma takeWhile_length_eq_of (p : Int → Bool) (l : List Int) :
    ∀ (k : Nat), k ≤ l.length → (∀ i, i < k → p (l.getD i 0) = true) →
      (k < l.length → p (l.getD k 0) = false) → (l.takeWhile p).length = k := by
  induction l with
  | nil =>
    intro k hk _ _
    simp only [List.length_nil] at hk
    simp only [List.takeWhile_nil, List.length_nil]
    omega
  | cons a t ih =>
    intro k hk h1 h2
    cases k with
    | zero =>
      have := h2 (by simp)
      simp only [List.getD_cons_zero] at this
      simp [List.takeWhile_cons, this]
    | succ k' =>
      have ha := h1 0 (by omega)
      simp only [List.getD_cons_zero] at ha
      rw [List.takeWhile_cons, if_pos ha]
      simp only [List.length_cons, Nat.add_right_cancel_iff]
      refine ih k' (by simpa using hk) (fun i hi => ?_) (fun hlt => ?_)
      · have := h1 (i + 1) (by omega)
        simpa using this
      · have := h2 (by simpa using hlt)
        simpa using this

/-- The le-key prefix is no longer than the vector. -/
lemma boundary_le_length (key : Int) (v : List Int) :
    (v.takeWhile (fun x => x ≤ key)).length ≤ v.length :=
  (List.takeWhile_sublist _).length_le

/-- Invariant of the binary-search loop of rank: as long as the right
bound is inside the vector, the fuel covers the remaining interval, and
the left bound has not passed the le-key boundary, the returned midpoint
does not pass the boundary either. -/
lemma rankLoop_le_boundary {v : List Int} {key : Int} (hs : List.Sorted (· ≤ ·) v) :
    ∀ (fuel l r mid : Nat), r < v.length → l ≤ r → r - l < fuel →
      l ≤ (v.takeWhile (fun x => x ≤ key)).length →
      (l = r → mid ≤ (v.takeWhile (fun x => x ≤ key)).length) →
      rankLoop v key fuel l r mid ≤ (v.takeWhile (fun x => x ≤ key)).length := by
  intro fuel
  induction fuel with
  | zero => intro l r mid _ _ hfuel _ _; omega
  | succ fuel ih =>
    intro l r mid hr hlr hfuel hl hbase
    rw [rankLoop]
    by_cases hcond : l < r
    · rw [if_pos hcond]
      have hmlb : l ≤ (l + r) / 2 := by omega
      have hmub : (l + r) / 2 < r := by omega
      have hmlen : (l + r) / 2 < v.length := by omega
      by_cases hlt : v.getD ((l + r) / 2) 0 < key
      · rw [if_pos hlt]
        have hmc : (l + r) / 2 < (v.takeWhile (fun x => x ≤ key)).length := by
          by_contra hcon
          exact absurd (@key_lt_of_boundary_le key v hs ((l + r) / 2) (by omega) hmlen)
            (by omega)
        exact ih ((l + r) / 2 + 1) r _ hr (by omega) (by omega) (by omega) (fun _ => by omega)
      · rw [if_neg hlt]
        by_cases hgt : key < v.getD ((l + r) / 2) 0
        · rw [if_pos hgt]
          exact ih l ((l + r) / 2) _ (by omega) (by omega) (by omega) hl
            (fun he => by omega)
        · rw [if_neg hgt]
          by_contra hcon
          exact absurd (@key_lt_of_boundary_le key v hs ((l + r) / 2) (by omega) hmlen)
            (by omega)
    · rw [if_neg hcond]
      exact hbase (by omega)

/-- Length of the forward scan of rank: dropping m elements with m at or
before the le-key boundary, the contiguous le-key run has exactly the
remaining boundary length. -/
lemma scan_length {v : List Int} {key : Int} (hs : List.Sorted (· ≤ ·) v) {m : Nat}
    (hm : m ≤ (v.takeWhile (fun x => x ≤ key)).length) :
    ((v.drop m).takeWhile (fun x => x ≤ key)).length =
      (v.takeWhile (fun x => x ≤ key)).length - m := by
  have hcle : (v.takeWhile (fun x => x ≤ key)).length ≤ v.length :=
    boundary_le_length key v
  refine takeWhile_length_eq_of _ _ _ ?_ (fun i hi => ?_) (fun hlt => ?_)
  · simp only [List.length_drop]
    omega
  · have hgd : (v.drop m).getD i 0 = v.getD (m + i) 0 := by
      simp [List.getElem?_drop]
    rw [hgd]
    exact decide_eq_true (le_key_of_lt_boundary (by omega))
  · simp only [List.length_drop] at hlt
    have hidx : m + ((v.takeWhile (fun x => x ≤ key)).length - m) =
        (v.takeWhile (fun x => x ≤ key)).length := by omega
    have hgd : (v.drop m).getD ((v.takeWhile (fun x => x ≤ key)).length - m) 0 =
        v.getD ((v.takeWhile (fun x => x ≤ key)).length) 0 := by
      simp only [List.getD_eq_getElem?_getD, List.getElem?_drop, hidx]
    rw [hgd]
    exact decide_eq_false (not_le.2
      (@key_lt_of_boundary_le key v hs _ (by omega) (by omega)))

/-- The rank of a key in a sorted vector is the length of its le-key
prefix: the binary search leaves mid at or before the boundary, and the
forward scan makes up exactly the difference. -/
lemma rank_eq_boundary {v : List Int} {key : Int} (hs : List.Sorted (· ≤ ·) v) :
    rank v key = (v.takeWhile (fun x => x ≤ key)).length := by
  by_cases hv : v = []
  · simp [rank, hv]
  · have hlen : 0 < v.length := List.length_pos.2 hv
    have hne : v.isEmpty = false := by simpa [List.isEmpty_iff] using hv
    have hcle : (v.takeWhile (fun x => x ≤ key)).length ≤ v.length :=
      boundary_le_length key v
    have hmc : rankLoop v key v.length 0 (v.length - 1) 0 ≤
        (v.takeWhile (fun x => x ≤ key)).length :=
      rankLoop_le_boundary hs v.length 0 (v.length - 1) 0 (by omega) (by omega) (by omega)
        (by omega) (fun _ => by omega)
    have hrank : rank v key = rankLoop v key v.length 0 (v.length - 1) 0 +
        ((v.drop (rankLoop v key v.length 0 (v.length - 1) 0)).takeWhile
          (fun x => x ≤ key)).length := by
      rw [rank, if_neg (by simp [hne])]
    rw [hrank, scan_length hs hmc]
    omega

/-- In a sorted vector the le-key prefix and the le-key filter agree. -/
lemma takeWhile_eq_filter_of_sorted {key : Int} {v : List Int}
    (hs : List.Sorted (· ≤ ·) v) :
    v.takeWhile (fun x => x ≤ key) = v.filter (fun x => x ≤ key) := by
  induction v with
  | nil => rfl
  | cons a t ih =>
    rw [List.sorted_cons] at hs
    by_cases ha : a ≤ key
    · simp only [List.takeWhile_cons, List.filter_cons, decide_eq_true ha, if_true]
      rw [ih hs.2]
    · simp only [List.takeWhile_cons, List.filter_cons, decide_eq_false ha,
        Bool.false_eq_true, if_false]
      symm
      rw [List.filter_eq_nil_iff]
      intro b hb
      have := hs.1 b hb
      simp only [decide_eq_true_eq]
      omega

/-- In a sorted vector every element past the le-key prefix is strictly
greater than the key. -/
lemma key_lt_of_mem_dropWhile {key : Int} {v : List Int}
    (hs : List.Sorted (· ≤ ·) v) :
    ∀ b ∈ v.dropWhile (fun x => x ≤ key), key < b := by
  induction v with
  | nil => simp
  | cons a t ih =>
    rw [List.sorted_cons] at hs
    by_cases ha : a ≤ key
    · simp only [List.dropWhile_cons, decide_eq_true ha, if_true]
      exact ih hs.2
    · simp only [List.dropWhile_cons, decide_eq_false ha, Bool.false_eq_true, if_false]
      intro b hb
      rcases List.mem_cons.1 hb with rfl | hbt
      · exact lt_of_not_le ha
      · exact lt_of_lt_of_le (lt_of_not_le ha) (hs.1 b hbt)

/-- Insert splits the sorted vector at the le-key boundary: the le-key
prefix, then the new key, then the strictly greater suffix. -/
lemma insert_eq_parts {v : List Int} {key : Int} (hs : List.Sorted (· ≤ ·) v) :
    insert v key =
      v.takeWhile (fun x => x ≤ key) ++ key :: v.dropWhile (fun x => x ≤ key) := by
  have htake : v.take ((v.takeWhile (fun x => x ≤ key)).length) =
      v.takeWhile (fun x => x ≤ key) := by
    have h := @List.take_left' Int (v.takeWhile (fun x => x ≤ key))
      (v.dropWhile (fun x => x ≤ key)) _ rfl
    rwa [List.takeWhile_append_dropWhile] at h
  have hdrop : v.drop ((v.takeWhile (fun x => x ≤ key)).length) =
      v.dropWhile (fun x => x ≤ key) := by
    have h := @List.drop_left' Int (v.takeWhile (fun x => x ≤ key))
      (v.dropWhile (fun x => x ≤ key)) _ rfl
    rwa [List.takeWhile_append_dropWhile] at h
  rw [insert, rank_eq_boundary hs, htake, hdrop]

/-- Insert keeps the vector sorted non-decreasing. -/
lemma insert_sorted {v : List Int} {key : Int} (hs : List.Sorted (· ≤ ·) v) :
    List.Sorted (· ≤ ·) (insert v key) := by
  rw [insert_eq_parts hs]
  refine List.pairwise_append.2
    ⟨hs.sublist (List.takeWhile_sublist _), ?_, ?_⟩
  · refine List.pairwise_cons.2 ⟨fun b hb => le_of_lt (key_lt_of_mem_dropWhile hs b hb),
      hs.sublist (List.dropWhile_sublist _)⟩
  · intro x hx y hy
    have hxk : x ≤ key := by simpa using List.mem_takeWhile_imp hx
    rcases List.mem_cons.1 hy with rfl | hyd
    · exact hxk
    · exact le_trans hxk (le_of_lt (key_lt_of_mem_dropWhile hs y hyd))

/-- Insert adds exactly the new key to the multiset of elements. -/
lemma insert_perm {v : List Int} {key : Int} (hs : List.Sorted (· ≤ ·) v) :
    (insert v key).Perm (key :: v) := by
  rw [insert_eq_parts hs]
  have h := @List.perm_middle Int key (v.takeWhile (fun x => x ≤ key))
    (v.dropWhile (fun x => x ≤ key))
  rwa [List.takeWhile_append_dropWhile] at h

/-- Any sequence of inserts starting from a sorted accumulator stays
sorted. -/
lemma foldl_insert_sorted (ks : List Int) :
    ∀ acc, List.Sorted (· ≤ ·) acc → List.Sorted (· ≤ ·) (ks.foldl insert acc) := by
  induction ks with
  | nil => intro acc h; simpa using h
  | cons k ks ih =>
    intro acc h
    rw [List.foldl_cons]
    exact ih _ (insert_sorted h)

end SortedVec

/-- C1: for every SortedVec whose underlying sequence is sorted
non-decreasing and for every key, rank(key) returns exactly the number of
stored elements le the key; the empty-set case and the [1,3,3,5] examples
are instances. -/
theorem rank_counts_le_elements (v : List Int) (key : Int)
    (hs : List.Sorted (· ≤ ·) v) :
    SortedVec.rank v key = (v.filter (fun x => x ≤ key)).length := by
  rw [SortedVec.rank_eq_boundary hs, SortedVec.takeWhile_eq_filter_of_sorted hs]

/-- Witness for C1 at the spec example set [1,3,3,5] with key 3. -/
theorem rank_counts_le_elements_witness :
    List.Sorted (· ≤ ·) [(1 : Int), 3, 3, 5] ∧
    SortedVec.rank [1, 3, 3, 5] 3 = ([(1 : Int), 3, 3, 5].filter (fun x => x ≤ 3)).length :=
  ⟨by decide, rank_counts_le_elements [1, 3, 3, 5] 3 (by decide)⟩

/-- C2: insert places the key right after all existing elements le it and
before all strictly greater ones, keeps the sequence sorted, adds exactly
that key to the multiset, and any sequence of insertions from the empty
set is sorted after every insertion. -/
theorem insert_sorted_after_le (v : List Int) (key : Int)
    (hs : List.Sorted (· ≤ ·) v) :
    SortedVec.insert v key =
      v.takeWhile (fun x => x ≤ key) ++ key :: v.dropWhile (fun x => x ≤ key)
    ∧ List.Sorted (· ≤ ·) (SortedVec.insert v key)
    ∧ (SortedVec.insert v key).Perm (key :: v)
    ∧ ∀ ks : List Int, List.Sorted (· ≤ ·) (ks.foldl SortedVec.insert []) :=
  ⟨SortedVec.insert_eq_parts hs, SortedVec.insert_sorted hs, SortedVec.insert_perm hs,
    fun ks => SortedVec.foldl_insert_sorted ks [] (by simp)⟩

/-- Witness for C2 inserting the duplicate key 3 into [1,3,3,5]. -/
theorem insert_sorted_after_le_witness :
    List.Sorted (· ≤ ·) [(1 : Int), 3, 3, 5] ∧
    List.Sorted (· ≤ ·) (SortedVec.insert [1, 3, 3, 5] 3) :=
  ⟨by decide, (insert_sorted_after_le [1, 3, 3, 5] 3 (by decide)).2.1⟩

/-- C3: remove_le leaves exactly the elements strictly greater than the
cutoff, in their original relative order, and is idempotent for the same
cutoff. -/
theorem remove_le_strictly_greater (v : List Int) (k : Int) :
    List.Sublist (SortedVec.removeLe v k) v
    ∧ (∀ x ∈ SortedVec.removeLe v k, k < x)
    ∧ (∀ x : Int, k < x → (SortedVec.removeLe v k).count x = v.count x)
    ∧ SortedVec.removeLe (SortedVec.removeLe v k) k = SortedVec.removeLe v k := by
  refine ⟨List.filter_sublist _, ?_, ?_, ?_⟩
  · intro x hx
    have h := (List.mem_filter.1 hx).2
    simpa using h
  · intro x hx
    exact List.count_filter (by simpa using hx)
  · simp only [SortedVec.removeLe, List.filter_filter]
    congr 1
    funext a
    exact Bool.and_self _

/-- Witness for C3: a strictly greater element keeps its multiplicity at
a concrete input. -/
theorem remove_le_strictly_greater_witness :
    (1 : Int) < 3 ∧ (SortedVec.removeLe [1, 2, 3] 1).count 3 = [(1 : Int), 2, 3].count 3 :=
  ⟨by decide, (remove_le_strictly_greater [1, 2, 3] 1).2.2.1 3 (by decide)⟩

/-- C10: in a sorted vector the rank never exceeds the length, so the
index handed to the vector insertion is in bounds (the insertion really
extends the length by one), and the access at rank - 1 made by position
under its nonzero guard is in bounds. -/
theorem rank_and_access_in_bounds (v : List Int) (key : Int)
    (hs : List.Sorted (· ≤ ·) v) :
    SortedVec.rank v key ≤ v.length
    ∧ (SortedVec.rank v key ≠ 0 → SortedVec.rank v key - 1 < v.length)
    ∧ (SortedVec.insert v key).length = v.length + 1 := by
  have h := @SortedVec.rank_eq_boundary v key hs
  have hb := SortedVec.boundary_le_length key v
  refine ⟨by omega, by omega, ?_⟩
  rw [SortedVec.insert]
  simp only [List.length_append, List.length_cons, List.length_take, List.length_drop]
  omega

/-- Witness for C10 on the sorted vector [1,3,3,5] with an out-of-range
key. -/
theorem rank_and_access_in_bounds_witness :
    List.Sorted (· ≤ ·) [(1 : Int), 3, 3, 5] ∧
    SortedVec.rank [1, 3, 3, 5] 6 ≤ [(1 : Int), 3, 3, 5].length :=
  ⟨by decide, (rank_and_access_in_bounds [1, 3, 3, 5] 6 (by decide)).1⟩

/-- Folding the max_by_key step from a some accumulator never yields
none. -/
lemma foldl_maxStep_isSome :
    ∀ (l : List (String × Nat)) (q : String × Nat),
      ∃ r, List.foldl maxStep (some q) l = some r := by
  intro l
  induction l with
  | nil => intro q; exact ⟨q, rfl⟩
  | cons p t ih =>
    intro q
    rw [List.foldl_cons]
    by_cases hle : q.2 ≤ p.2
    · have hstep : maxStep (some q) p = some p := by simp [maxStep, hle]
      rw [hstep]; exact ih p
    · have hstep : maxStep (some q) p = some q := by simp [maxStep, hle]
      rw [hstep]; exact ih q

/-- A selection that yields no word can only come from an empty store
with no default configured. -/
lemma select_none_imp {es : Store} {bs : Nat → Nat} {d : Option String}
    (h : selectWeightedMax es bs d = none) : es = [] ∧ d = none := by
  rw [selectWeightedMax] at h
  rcases Option.or_eq_none.1 h with ⟨h1, h2⟩
  refine ⟨?_, h2⟩
  rw [Option.map_eq_none'] at h1
  cases es with
  | nil => rfl
  | cons p rest =>
    exfalso
    rw [maxByKeyLast] at h1
    simp only [scoreEntries, List.foldl_cons] at h1
    have hstep : maxStep none (p.1, p.2.length + bs 0) = some (p.1, p.2.length + bs 0) :=
      rfl
    rw [hstep] at h1
    obtain ⟨r, hr⟩ := foldl_maxStep_isSome (scoreEntries bs (0 + 1) rest)
      (p.1, p.2.length + bs 0)
    rw [hr] at h1
    exact Option.noConfusion h1

/-- C4: after evict(cutoff) followed by compact(), every surviving entry
is nonempty and holds only timestamps strictly greater than the cutoff,
and a token whose whole history was le the cutoff has no entry left. -/
theorem evict_compact_drops_stale (s : Store) (c : Int) (k : String)
    (hall : ∀ w, (k, w) ∈ s → ∀ t ∈ w, t ≤ c) :
    (∀ q ∈ compact (evict s c), q.2 ≠ [] ∧ ∀ t ∈ q.2, c < t)
    ∧ ∀ v, (k, v) ∉ compact (evict s c) := by
  constructor
  · intro q hq
    have hq' := List.mem_filter.1 hq
    obtain ⟨p, hp, hpq⟩ := List.mem_map.1 hq'.1
    constructor
    · have hlen : q.2.length ≠ 0 := by simpa using hq'.2
      intro hnil
      rw [hnil] at hlen
      simp at hlen
    · intro t ht
      rw [← hpq] at ht
      have := (List.mem_filter.1 ht).2
      simpa using this
  · intro v hv
    have hv' := List.mem_filter.1 hv
    obtain ⟨p, hp, hpq⟩ := List.mem_map.1 hv'.1
    rw [Prod.mk.injEq] at hpq
    have hpfst : p = (k, p.2) := by
      rw [← hpq.1]
    rw [hpfst] at hp
    have hwle := hall p.2 hp
    have hempty : SortedVec.removeLe p.2 c = [] := by
      rw [SortedVec.removeLe, List.filter_eq_nil_iff]
      intro a ha
      simpa using not_lt.2 (hwle a ha)
    rw [hempty] at hpq
    have := hv'.2
    rw [← hpq.2] at this
    simp at this

/-- Witness for C4: the token a with history [1,2] entirely le cutoff 3
is gone after evict and compact. -/
theorem evict_compact_drops_stale_witness :
    ([5] : List Int) ∉ ([] : List (List Int)) ∧
    ∀ v, ("a", v) ∉ compact (evict [("a", [1, 2])] 3) := by
  refine ⟨by simp, (evict_compact_drops_stale [("a", [1, 2])] 3 "a" ?_).2⟩
  intro w hw t ht
  rw [List.mem_singleton, Prod.mk.injEq] at hw
  rw [hw.2] at ht
  rcases List.mem_cons.1 ht with rfl | ht'
  · omega
  · rcases List.mem_singleton.1 ht' with rfl
    omega

/-- C5 counterexample: with an empty store and no default word, the cycle
selects nothing and the eviction block does not run, so the cycle does
not pass through the Evicting state in that iteration. -/
theorem decay_cycle_skips_eviction_counterexample :
    (decayCycle [] (fun _ => 0) none none true 0).2.1 = false := by decide

/-- C5 amended: the eviction block runs exactly when a word was selected,
hence regardless of the destination being absent or the send failing;
when no word was selected the store was necessarily empty, so the
post-cycle store still equals the evicted-and-compacted pre-cycle
store. -/
theorem decay_cycle_eviction_behavior (store : Store) (bs : Nat → Nat)
    (d : Option String) (ch : Option Nat) (ok : Bool) (cutoff : Int) :
    (decayCycle store bs d ch ok cutoff).2.1 = (selectWeightedMax store bs d).isSome
    ∧ (decayCycle store bs d ch ok cutoff).1 = compact (evict store cutoff) := by
  cases h : selectWeightedMax store bs d with
  | some w => simp [decayCycle, h]
  | none =>
    obtain ⟨hse, hd⟩ := select_none_imp h
    subst hse
    simp [decayCycle, h, evict, compact]

/-- C7: selecting on an empty store returns the configured default word
when one is configured, and none when none is configured; never any other
token. -/
theorem select_empty_returns_default (bs : Nat → Nat) (d : Option String) :
    selectWeightedMax [] bs d = d := rfl

/-- C6: the code's selection depends on the map iteration order. The two
entry lists below hold the same store content (they are permutations) and
are scored with the same boost draws, yet the selection returns different
tokens, because max_by_key breaks score ties in favor of the later entry
of the unspecified iteration order. -/
theorem select_depends_on_iteration_order :
    ([("a", [0]), ("b", [0])] : Store).Perm [("b", [0]), ("a", [0])]
    ∧ selectWeightedMax [("a", [0]), ("b", [0])] (fun _ => 0) none = some "b"
    ∧ selectWeightedMax [("b", [0]), ("a", [0])] (fun _ => 0) none = some "a"
    ∧ selectWeightedMax [("a", [0]), ("b", [0])] (fun _ => 0) none ≠
        selectWeightedMax [("b", [0]), ("a", [0])] (fun _ => 0) none :=
  ⟨List.Perm.swap ("b", [0]) ("a", [0]) [], by decide, by decide, by decide⟩

/-- Specification of the max_by_key fold: a some result is an element of
the list (or the accumulator), dominates the score of every element, and
dominates the accumulator's score. -/
lemma foldl_maxStep_spec :
    ∀ (l : List (String × Nat)) (acc : Option (String × Nat)) (q : String × Nat),
      List.foldl maxStep acc l = some q →
      (q ∈ l ∨ acc = some q)
      ∧ (∀ p ∈ l, p.2 ≤ q.2)
      ∧ (∀ a, acc = some a → a.2 ≤ q.2) := by
  intro l
  induction l with
  | nil =>
    intro acc q h
    rw [List.foldl_nil] at h
    refine ⟨Or.inr h, by simp, fun a ha => ?_⟩
    rw [ha] at h
    injection h with h'
    rw [h']
  | cons p t ih =>
    intro acc q h
    rw [List.foldl_cons] at h
    obtain ⟨hmem, hall, hacc⟩ := ih (maxStep acc p) q h
    refine ⟨?_, ?_, ?_⟩
    · rcases hmem with hq | hstep
      · exact Or.inl (List.mem_cons_of_mem _ hq)
      · cases acc with
        | none =>
          have hpq : p = q := by simpa [maxStep] using hstep
          exact Or.inl (hpq ▸ List.mem_cons_self _ _)
        | some a =>
          by_cases hle : a.2 ≤ p.2
          · have hpq : p = q := by simpa [maxStep, hle] using hstep
            exact Or.inl (hpq ▸ List.mem_cons_self _ _)
          · have haq : a = q := by simpa [maxStep, hle] using hstep
            exact Or.inr (by rw [haq])
    · intro x hx
      rcases List.mem_cons.1 hx with rfl | hxt
      · cases acc with
        | none => exact hacc x (by simp [maxStep])
        | some a =>
          by_cases hle : a.2 ≤ x.2
          · exact hacc x (by simp [maxStep, hle])
          · exact le_trans (le_of_not_le hle) (hacc a (by simp [maxStep, hle]))
      · exact hall x hxt
    · intro a ha
      subst ha
      by_cases hle : a.2 ≤ p.2
      · exact le_trans hle (hacc p (by simp [maxStep, hle]))
      · exact hacc a (by simp [maxStep, hle])

/-- With all boost draws zero the scored entries are just the entries
paired with their set lengths, whatever the draw offset. -/
lemma scoreEntries_zero {bs : Nat → Nat} (hz : ∀ j, bs j = 0) (es : Store) :
    ∀ i, scoreEntries bs i es = es.map (fun p => (p.1, p.2.length)) := by
  induction es with
  | nil => intro i; rfl
  | cons p t ih =>
    intro i
    simp [scoreEntries, hz, ih]

/-- C8: with every boost draw equal to zero the selection returns a token
whose set length is maximal over the store; on the store a ↦ 3
timestamps, b ↦ 1 timestamp it deterministically returns a. -/
theorem select_zero_boost_max (es : Store) (bs : Nat → Nat) (d : Option String)
    (hz : ∀ j, bs j = 0) (hne : es ≠ []) :
    selectWeightedMax [("a", [0, 1, 2]), ("b", [3])] bs d = some "a"
    ∧ ∃ w ts, selectWeightedMax es bs d = some w ∧ (w, ts) ∈ es
        ∧ ∀ q ∈ es, q.2.length ≤ ts.length := by
  constructor
  · rw [selectWeightedMax, scoreEntries_zero hz]
    rfl
  · cases es with
    | nil => exact absurd rfl hne
    | cons p t =>
      rw [selectWeightedMax, scoreEntries_zero hz]
      obtain ⟨r, hr⟩ := foldl_maxStep_isSome (t.map fun x => (x.1, x.2.length))
        (p.1, p.2.length)
      have hfold : List.foldl maxStep none ((p :: t).map fun x => (x.1, x.2.length)) =
          some r := by
        rw [List.map_cons, List.foldl_cons]
        have hstep : maxStep none (p.1, p.2.length) = some (p.1, p.2.length) := rfl
        rw [hstep, hr]
      obtain ⟨hmem, hall, _⟩ := foldl_maxStep_spec _ _ _ hfold
      rcases hmem with hrmem | habs
      · obtain ⟨pp, hpp, hppr⟩ := List.mem_map.1 hrmem
        refine ⟨r.1, pp.2, ?_, ?_, ?_⟩
        · rw [maxByKeyLast, hfold]
          rfl
        · have h1 : pp.1 = r.1 := by rw [← hppr]
          rw [← h1, Prod.mk.eta]
          exact hpp
        · intro q hq
          have hq2 := hall (q.1, q.2.length) (List.mem_map.2 ⟨q, hq, rfl⟩)
          have h2 : r.2 = pp.2.length := by rw [← hppr]
          simp only at hq2
          omega
      · exact absurd habs (by simp)

/-- Witness for C8 on the spec store with three timestamps for a and one
for b, all boosts zero. -/
theorem select_zero_boost_max_witness :
    ([("a", [0, 1, 2]), ("b", [3])] : Store) ≠ [] ∧
    selectWeightedMax [("a", [0, 1, 2]), ("b", [3])] (fun _ => 0) none = some "a" :=
  ⟨by simp, (select_zero_boost_max [("a", [0, 1, 2]), ("b", [3])] (fun _ => 0) none
    (fun _ => rfl) (by simp)).1⟩

/-- Updating the entry of one token does not change the lookup of any
other token. -/
lemma lookup_map_update_other (m : Store) (w w' : String) (t : Int) (hne : w' ≠ w) :
    List.lookup w'
      (m.map (fun p => if p.1 = w then (p.1, SortedVec.insert p.2 t) else p)) =
      List.lookup w' m := by
  induction m with
  | nil => rfl
  | cons a m ih =>
    rw [List.map_cons]
    by_cases hw : w' = a.1
    · have ha : a.1 ≠ w := by rw [← hw]; exact hne
      rw [if_neg ha]
      obtain ⟨a1, a2⟩ := a
      subst hw
      rw [List.lookup_cons_self, List.lookup_cons_self]
    · obtain ⟨a1, a2⟩ := a
      have hbeq : (w' == a1) = false := by simpa using hw
      by_cases ha : a1 = w
      · rw [if_pos ha]
        rw [List.lookup_cons, List.lookup_cons, hbeq]
        exact ih
      · rw [if_neg ha]
        rw [List.lookup_cons, List.lookup_cons, hbeq]
        exact ih

/-- C9: record creates a fresh singleton set on first observation of a
token, otherwise inserts the timestamp into the token's existing set,
leaves every other token's entry unchanged, and with case normalization
recording Ciao then ciao yields the single entry ciao holding both
timestamps. -/
theorem record_creates_or_inserts (m : Store) (w : String) (t : Int) :
    (List.lookup w m = none → record m w t = m ++ [(w, [t])])
    ∧ (∀ ts, List.lookup w m = some ts →
        List.lookup w (record m w t) = some (SortedVec.insert ts t))
    ∧ (∀ w', w' ≠ w → List.lookup w' (record m w t) = List.lookup w' m)
    ∧ recordWord (recordWord [] "Ciao" 0) "ciao" 1 = [("ciao", [0, 1])] := by
  refine ⟨fun h => by rw [record, h], fun ts h => ?_, fun w' hne => ?_, by decide⟩
  · rw [record, h]
    induction m with
    | nil => simp at h
    | cons a m ih =>
      obtain ⟨a1, a2⟩ := a
      by_cases hw : w = a1
      · subst hw
        rw [List.lookup_cons_self] at h
        injection h with h
        subst h
        rw [List.map_cons, if_pos rfl, List.lookup_cons_self]
      · have hbeq : (w == a1) = false := by simpa using hw
        rw [List.lookup_cons, hbeq] at h
        rw [List.map_cons]
        by_cases ha : a1 = w
        · exact absurd ha.symm hw
        · rw [if_neg ha, List.lookup_cons, hbeq]
          exact ih h
  · rw [record]
    cases hl : List.lookup w m with
    | some ts => exact lookup_map_update_other m w w' t hne
    | none =>
      rw [List.lookup_append]
      have hnone : List.lookup w' [(w, [t])] = none := by
        rw [List.lookup_cons]
        have hbeq : (w' == w) = false := by simpa using hne
        rw [hbeq, List.lookup_nil]
      rw [hnone, Option.or_none]

/-- Witness for C9: inserting into an existing entry at a concrete
store. -/
theorem record_creates_or_inserts_witness :
    List.lookup "x" ([("x", [5])] : Store) = some [5] ∧
    List.lookup "x" (record [("x", [5])] "x" 7) = some (SortedVec.insert [5] 7) :=
  ⟨by decide, (record_creates_or_inserts [("x", [5])] "x" 7).2.1 [5] (by decide)⟩
